import Mathlib

set_option maxHeartbeats 1000000

/-!
Shallow embedding of randterrainpy/terraingen.py (diamond-square terrain
generation, plus the gradient initialization of the Perlin generator).

Heights and random draws are modelled as exact rationals.  The stream of
values produced by random.random() is modelled as a function rng : Nat -> Rat
together with an index threaded through the computation; each call to
_update_square or _update_diamond consumes one draw.  Python 2 integer
division on nonnegative ints is Nat division.
-/

/-- Modelled from the spec: the Terrain grid container (terrain.py is not under
src/, only terraingen.py is).  Width, length, and a total height map; creation
gives fixed dimensions and zero elevations; set overwrites a single cell. -/
structure Terrain where
  width : ℕ
  length : ℕ
  heights : ℕ → ℕ → ℚ

def Terrain.get (t : Terrain) (x y : ℕ) : ℚ := t.heights x y

def Terrain.set (t : Terrain) (x y : ℕ) (v : ℚ) : Terrain :=
  { t with heights := fun a b => if a = x ∧ b = y then v else t.heights a b }

/-- Modelled from the spec: Terrain is created with fixed dimensions and zero
elevations (undefined-or-zero per the spec data model). -/
def mkTerrain (w l : ℕ) : Terrain := ⟨w, l, fun _ _ => 0⟩

/-- The clamping branch shared by _update_square and _update_diamond:
if not 0 <= v <= 1: (1 if v > 1 else 0) else v. -/
def clampVal (v : ℚ) : ℚ :=
  if ¬ (0 ≤ v ∧ v ≤ 1) then (if 1 < v then 1 else 0) else v

/-- frequency = terrain.length / square_len, Python 2 integer (floor)
division of nonnegative ints. -/
def dsFreq (length len : ℕ) : ℕ := length / len

/-- The mean of the four diagonal corners read by _update_square. -/
def squareMean (ter : Terrain) (x y half_len : ℕ) : ℚ :=
  (ter.get (x - half_len) (y - half_len) + ter.get (x - half_len) (y + half_len) +
    ter.get (x + half_len) (y - half_len) + ter.get (x + half_len) (y + half_len)) / 4

/-- _update_square.  The state is (terrain, index into the stream of
random.random() draws); one draw is consumed. -/
def updateSquare (amp : ℚ → ℚ) (rng : ℕ → ℚ) (st : Terrain × ℕ) (x y square_len : ℕ) :
    Terrain × ℕ :=
  let ter := st.1
  let mean_height := squareMean ter x y (square_len / 2)
  let offset := (rng st.2 - 1/2) * amp (dsFreq ter.length square_len)
  (ter.set x y (clampVal (mean_height + offset)), st.2 + 1)

/-- The neighbour list built by _update_diamond: left, up, right, down, each
guarded by the corresponding boundary test of the code. -/
def diamondNeighbours (ter : Terrain) (x y half_len : ℕ) : List ℚ :=
  (if x ≠ 0 then [ter.get (x - half_len) y] else []) ++
  (if y ≠ 0 then [ter.get x (y - half_len)] else []) ++
  (if x ≠ ter.width - 1 then [ter.get (x + half_len) y] else []) ++
  (if y ≠ ter.length - 1 then [ter.get x (y + half_len)] else [])

/-- mean_height of _update_diamond: sum of the gathered neighbours divided by
their count. -/
def diamondMean (ter : Terrain) (x y half_len : ℕ) : ℚ :=
  (diamondNeighbours ter x y half_len).sum / ((diamondNeighbours ter x y half_len).length : ℚ)

/-- _update_diamond, with the same state threading as updateSquare. -/
def updateDiamond (amp : ℚ → ℚ) (rng : ℕ → ℚ) (st : Terrain × ℕ) (x y diamond_len : ℕ) :
    Terrain × ℕ :=
  let ter := st.1
  let mean_height := diamondMean ter x y (diamond_len / 2)
  let offset := (rng st.2 - 1/2) * amp (dsFreq ter.length diamond_len)
  (ter.set x y (clampVal (mean_height + offset)), st.2 + 1)

/-- Python range(a, b, step) for step > 0, as a list. -/
def pyRange (a b step : ℕ) : List ℕ :=
  (List.range ((b - a + step - 1) / step)).map (fun i => a + step * i)

/-- The square-phase double loop of _divide. -/
def squarePass (amp : ℚ → ℚ) (rng : ℕ → ℚ) (st : Terrain × ℕ) (square_len : ℕ) :
    Terrain × ℕ :=
  (pyRange (square_len / 2) st.1.length square_len).foldl
    (fun s y => (pyRange (square_len / 2) s.1.width square_len).foldl
      (fun s2 x => updateSquare amp rng s2 x y square_len) s) st

/-- The diamond-phase double loop of _divide; the inner loop starts at
(y + half) mod square_len. -/
def diamondPass (amp : ℚ → ℚ) (rng : ℕ → ℚ) (st : Terrain × ℕ) (square_len : ℕ) :
    Terrain × ℕ :=
  (pyRange 0 st.1.length (square_len / 2)).foldl
    (fun s y => (pyRange ((y + square_len / 2) % square_len) s.1.width square_len).foldl
      (fun s2 x => updateDiamond amp rng s2 x y square_len) s) st

/-- _divide: square pass, diamond pass, then recurse at half size; stops as
soon as half < 1. -/
def divide (amp : ℚ → ℚ) (rng : ℕ → ℚ) (st : Terrain × ℕ) (square_len : ℕ) :
    Terrain × ℕ :=
  if square_len / 2 < 1 then st
  else divide amp rng (diamondPass amp rng (squarePass amp rng st square_len) square_len)
    (square_len / 2)
termination_by square_len
decreasing_by omega

/-- _initialize_corners: the four corner cells get init_val. -/
def initCorners (terrain : Terrain) (init_val : ℚ) : Terrain :=
  (((terrain.set 0 0 init_val).set 0 (terrain.length - 1) init_val).set
    (terrain.width - 1) 0 init_val).set (terrain.width - 1) (terrain.length - 1) init_val

/-- DiamondSquareGenerator.__call__ for side_exp >= 0: side_len = 2^side_exp + 1,
corners seeded at 0.5, then the recursive subdivision from square_len = side_len - 1. -/
def callDS (amp : ℚ → ℚ) (rng : ℕ → ℚ) (side_exp : ℕ) : Terrain :=
  let side_len := 2 ^ side_exp + 1
  (divide amp rng (initCorners (mkTerrain side_len side_len) (1/2), 0) (side_len - 1)).1

/-- The sequence of square_len values the recursion of _divide is invoked
with (mirrors the recursion structure of divide). -/
def divideSquareLens (square_len : ℕ) : List ℕ :=
  if square_len / 2 < 1 then [square_len]
  else square_len :: divideSquareLens (square_len / 2)
termination_by square_len
decreasing_by omega

/-- side_len = 2 ** side_exp + 1 as Python 2 evaluates it for an arbitrary
integer exponent (a float, i.e. here a rational, when side_exp < 0). -/
def sideLenQ (side_exp : ℤ) : ℚ := 2 ^ side_exp + 1

/-- Modelled from the spec: Terrain creation fails with InvalidDimension iff
width <= 0 or length <= 0 (terrain.py is not under src/). -/
def terrainInvalidDim (w l : ℚ) : Bool := decide (w ≤ 0) || decide (l ≤ 0)

/-- The spec reading of the diamond-phase mean: the orthogonal neighbours at
distance half_len whose coordinates lie inside the grid, in the same
left, up, right, down order. -/
def specDiamondNeighbours (ter : Terrain) (x y half_len : ℕ) : List ℚ :=
  (([((x : ℤ) - half_len, (y : ℤ)), ((x : ℤ), (y : ℤ) - half_len),
    ((x : ℤ) + half_len, (y : ℤ)), ((x : ℤ), (y : ℤ) + half_len)]).filter
    (fun p => decide (0 ≤ p.1 ∧ p.1 < (ter.width : ℤ) ∧ 0 ≤ p.2 ∧ p.2 < (ter.length : ℤ)))).map
    (fun p => ter.get p.1.toNat p.2.toNat)

/-- x_val of _init_gradients: random.random() * vec_magnitude. -/
def gradXVal (rng : ℕ → ℚ) (vec_magnitude : ℚ) (k : ℕ) : ℚ := rng k * vec_magnitude

/-- The square of y_val = math.sqrt(vec_magnitude^2 - x_val^2) of
_init_gradients; the y component is modelled by its square, since the square
root leaves the rationals. -/
def gradYSq (rng : ℕ → ℚ) (vec_magnitude : ℚ) (k : ℕ) : ℚ :=
  vec_magnitude ^ 2 - gradXVal rng vec_magnitude k ^ 2

/-- _init_gradients: the grid _grad_vecs, indexed [y][x], with
length_in_squares rows of width_in_squares entries; x is the outer loop of the
code, so the draw index of cell (x, y) is x * length_in_squares + y. -/
def initGradients (rng : ℕ → ℚ) (width_in_squares length_in_squares : ℕ)
    (vec_magnitude : ℚ) : List (List (ℚ × ℚ)) :=
  (List.range length_in_squares).map (fun y =>
    (List.range width_in_squares).map (fun x =>
      (gradXVal rng vec_magnitude (x * length_in_squares + y),
       gradYSq rng vec_magnitude (x * length_in_squares + y))))

/-! ### Basic lemmas about the embedding -/

@[simp]
theorem Terrain.set_width (t : Terrain) (x y : ℕ) (v : ℚ) : (t.set x y v).width = t.width := rfl

@[simp]
theorem Terrain.set_length (t : Terrain) (x y : ℕ) (v : ℚ) : (t.set x y v).length = t.length := rfl

theorem Terrain.get_set_self (t : Terrain) (x y : ℕ) (v : ℚ) : (t.set x y v).get x y = v := by
  simp [Terrain.get, Terrain.set]

theorem Terrain.get_set_ne (t : Terrain) (x y : ℕ) (v : ℚ) (a b : ℕ)
    (h : ¬ (a = x ∧ b = y)) : (t.set x y v).heights a b = t.heights a b := by
  simp only [Terrain.set]
  exact if_neg h

theorem clampVal_nonneg (v : ℚ) : 0 ≤ clampVal v := by
  unfold clampVal
  split_ifs with h1 h2
  · exact h1.1
  · norm_num
  · norm_num

theorem clampVal_le_one (v : ℚ) : clampVal v ≤ 1 := by
  unfold clampVal
  split_ifs with h1 h2
  · exact h1.2
  · norm_num
  · norm_num

theorem clampVal_half : clampVal (1/2 + 0) = 1/2 := by norm_num [clampVal]

@[simp]
theorem updateSquare_width (amp : ℚ → ℚ) (rng : ℕ → ℚ) (st : Terrain × ℕ) (x y s : ℕ) :
    (updateSquare amp rng st x y s).1.width = st.1.width := rfl

@[simp]
theorem updateSquare_length (amp : ℚ → ℚ) (rng : ℕ → ℚ) (st : Terrain × ℕ) (x y s : ℕ) :
    (updateSquare amp rng st x y s).1.length = st.1.length := rfl

@[simp]
theorem updateDiamond_width (amp : ℚ → ℚ) (rng : ℕ → ℚ) (st : Terrain × ℕ) (x y s : ℕ) :
    (updateDiamond amp rng st x y s).1.width = st.1.width := rfl

@[simp]
theorem updateDiamond_length (amp : ℚ → ℚ) (rng : ℕ → ℚ) (st : Terrain × ℕ) (x y s : ℕ) :
    (updateDiamond amp rng st x y s).1.length = st.1.length := rfl

theorem updateSquare_get_self (amp : ℚ → ℚ) (rng : ℕ → ℚ) (st : Terrain × ℕ) (x y s : ℕ) :
    (updateSquare amp rng st x y s).1.get x y =
      clampVal (squareMean st.1 x y (s / 2) +
        (rng st.2 - 1/2) * amp (dsFreq st.1.length s)) := by
  simp [updateSquare, Terrain.get_set_self]

theorem updateDiamond_get_self (amp : ℚ → ℚ) (rng : ℕ → ℚ) (st : Terrain × ℕ) (x y s : ℕ) :
    (updateDiamond amp rng st x y s).1.get x y =
      clampVal (diamondMean st.1 x y (s / 2) +
        (rng st.2 - 1/2) * amp (dsFreq st.1.length s)) := by
  simp [updateDiamond, Terrain.get_set_self]

theorem updateSquare_heights_ne (amp : ℚ → ℚ) (rng : ℕ → ℚ) (st : Terrain × ℕ)
    (x y s a b : ℕ) (h : ¬ (a = x ∧ b = y)) :
    (updateSquare amp rng st x y s).1.heights a b = st.1.heights a b := by
  simp only [updateSquare]
  exact Terrain.get_set_ne _ _ _ _ _ _ h

theorem updateDiamond_heights_ne (amp : ℚ → ℚ) (rng : ℕ → ℚ) (st : Terrain × ℕ)
    (x y s a b : ℕ) (h : ¬ (a = x ∧ b = y)) :
    (updateDiamond amp rng st x y s).1.heights a b = st.1.heights a b := by
  simp only [updateDiamond]
  exact Terrain.get_set_ne _ _ _ _ _ _ h

/-! ### Generic fold gadgets -/

theorem foldl_preserve {α β : Type} (f : β → α → β) (P : β → Prop) :
    ∀ (l : List α), (∀ b a, a ∈ l → P b → P (f b a)) →
      ∀ b, P b → P (l.foldl f b) := by
  intro l
  induction l with
  | nil => intro _ b hb; simpa using hb
  | cons c t ih =>
    intro h b hb
    simp only [List.foldl_cons]
    exact ih (fun b2 a ha => h b2 a (List.mem_cons_of_mem _ ha)) _
      (h b c (List.mem_cons_self _ _) hb)

theorem foldl_frame_inv {α β : Type} {γ : Type} (f : β → α → β) (g : β → γ) (P : β → Prop) :
    ∀ (l : List α), (∀ b a, a ∈ l → P b → P (f b a)) →
      (∀ b a, a ∈ l → P b → g (f b a) = g b) →
      ∀ b, P b → g (l.foldl f b) = g b := by
  intro l
  induction l with
  | nil => intro _ _ b _; rfl
  | cons c t ih =>
    intro hP h b hb
    simp only [List.foldl_cons]
    rw [ih (fun b2 a ha => hP b2 a (List.mem_cons_of_mem _ ha))
      (fun b2 a ha => h b2 a (List.mem_cons_of_mem _ ha)) _
      (hP b c (List.mem_cons_self _ _) hb)]
    exact h b c (List.mem_cons_self _ _) hb

theorem foldl_write_once {α β : Type} (f : β → α → β) (g : β → ℚ) (P : β → Prop)
    (a0 : α) (v : ℚ) :
    ∀ (l : List α), (∀ b a, a ∈ l → P b → P (f b a)) →
      (∀ b, P b → g (f b a0) = v) →
      (∀ b a, a ∈ l → a ≠ a0 → P b → g (f b a) = g b) →
      a0 ∈ l → ∀ b, P b → g (l.foldl f b) = v := by
  intro l
  induction l with
  | nil => intro _ _ _ hmem; exact absurd hmem (List.not_mem_nil a0)
  | cons c t ih =>
    intro hP hw hfr hmem b hb
    simp only [List.foldl_cons]
    by_cases hc : c = a0
    · subst hc
      by_cases hm : c ∈ t
      · exact ih (fun b2 a ha => hP b2 a (List.mem_cons_of_mem _ ha)) hw
          (fun b2 a ha hne => hfr b2 a (List.mem_cons_of_mem _ ha) hne) hm _
          (hP b c (List.mem_cons_self _ _) hb)
      · rw [foldl_frame_inv f g P t
          (fun b2 a ha => hP b2 a (List.mem_cons_of_mem _ ha))
          (fun b2 a ha hb2 => hfr b2 a (List.mem_cons_of_mem _ ha)
            (fun he => hm (he ▸ ha)) hb2) _
          (hP b c (List.mem_cons_self _ _) hb)]
        exact hw b hb
    · have hm : a0 ∈ t := by
        rcases List.mem_cons.mp hmem with h | h
        · exact absurd h.symm hc
        · exact h
      exact ih (fun b2 a ha => hP b2 a (List.mem_cons_of_mem _ ha)) hw
        (fun b2 a ha hne => hfr b2 a (List.mem_cons_of_mem _ ha) hne) hm _
        (hP b c (List.mem_cons_self _ _) hb)

/-! ### pyRange membership -/

theorem mem_pyRange {a b step x : ℕ} (hstep : 0 < step) :
    x ∈ pyRange a b step ↔ ∃ i, x = a + step * i ∧ x < b := by
  unfold pyRange
  simp only [List.mem_map, List.mem_range]
  constructor
  · rintro ⟨i, hi, rfl⟩
    refine ⟨i, rfl, ?_⟩
    have h2 : (i + 1) * step ≤ b - a + step - 1 :=
      (Nat.le_div_iff_mul_le hstep).mp hi
    have hmul : (i + 1) * step = step * i + step := by ring
    rw [hmul] at h2
    set t := step * i with ht
    omega
  · rintro ⟨i, rfl, hb⟩
    refine ⟨i, ?_, rfl⟩
    have h3 : i + 1 ≤ (b - a + step - 1) / step := by
      apply (Nat.le_div_iff_mul_le hstep).mpr
      have hmul : (i + 1) * step = step * i + step := by ring
      rw [hmul]
      set t := step * i with ht
      omega
    omega

/-! ### All heights stay within the unit interval -/

/-- Invariant: every entry of the height map lies in the unit interval. -/
def heightsIn01 (ter : Terrain) : Prop :=
  ∀ a b : ℕ, 0 ≤ ter.heights a b ∧ ter.heights a b ≤ 1

theorem heightsIn01_set {ter : Terrain} (h : heightsIn01 ter) {v : ℚ}
    (hv : 0 ≤ v ∧ v ≤ 1) (x y : ℕ) : heightsIn01 (ter.set x y v) := by
  intro a b
  simp only [Terrain.set]
  split
  · exact hv
  · exact h a b

theorem updateSquare_in01 (amp : ℚ → ℚ) (rng : ℕ → ℚ) (st : Terrain × ℕ) (x y s : ℕ)
    (h : heightsIn01 st.1) : heightsIn01 (updateSquare amp rng st x y s).1 := by
  exact heightsIn01_set h ⟨clampVal_nonneg _, clampVal_le_one _⟩ x y

theorem updateDiamond_in01 (amp : ℚ → ℚ) (rng : ℕ → ℚ) (st : Terrain × ℕ) (x y s : ℕ)
    (h : heightsIn01 st.1) : heightsIn01 (updateDiamond amp rng st x y s).1 := by
  exact heightsIn01_set h ⟨clampVal_nonneg _, clampVal_le_one _⟩ x y

theorem squarePass_in01 (amp : ℚ → ℚ) (rng : ℕ → ℚ) (st : Terrain × ℕ) (s : ℕ)
    (h : heightsIn01 st.1) : heightsIn01 (squarePass amp rng st s).1 := by
  unfold squarePass
  refine foldl_preserve _ (fun b => heightsIn01 b.1) _ (fun b y _ hb => ?_) st h
  exact foldl_preserve _ (fun b => heightsIn01 b.1) _
    (fun b2 x _ hb2 => updateSquare_in01 amp rng b2 x y s hb2) b hb

theorem diamondPass_in01 (amp : ℚ → ℚ) (rng : ℕ → ℚ) (st : Terrain × ℕ) (s : ℕ)
    (h : heightsIn01 st.1) : heightsIn01 (diamondPass amp rng st s).1 := by
  unfold diamondPass
  refine foldl_preserve _ (fun b => heightsIn01 b.1) _ (fun b y _ hb => ?_) st h
  exact foldl_preserve _ (fun b => heightsIn01 b.1) _
    (fun b2 x _ hb2 => updateDiamond_in01 amp rng b2 x y s hb2) b hb

theorem divide_in01 (amp : ℚ → ℚ) (rng : ℕ → ℚ) :
    ∀ (s : ℕ) (st : Terrain × ℕ), heightsIn01 st.1 → heightsIn01 (divide amp rng st s).1 := by
  intro s
  induction s using Nat.strong_induction_on with
  | _ s ih =>
    intro st h
    rw [divide]
    split
    · exact h
    · next hcond =>
      exact ih (s / 2) (by omega) _
        (diamondPass_in01 amp rng _ s (squarePass_in01 amp rng st s h))

theorem initCorners_in01 {ter : Terrain} (h : heightsIn01 ter) {v : ℚ}
    (hv : 0 ≤ v ∧ v ≤ 1) : heightsIn01 (initCorners ter v) := by
  unfold initCorners
  exact heightsIn01_set (heightsIn01_set (heightsIn01_set (heightsIn01_set h hv _ _) hv _ _)
    hv _ _) hv _ _

theorem mkTerrain_in01 (w l : ℕ) : heightsIn01 (mkTerrain w l) := by
  intro a b
  norm_num [mkTerrain]

/-- Claim C1: for every side_exponent >= 0, DiamondSquareGenerator.__call__
returns a Terrain in which every cell value lies in the closed interval
from 0 to 1, whatever the amplitude function and the random draws are. -/
theorem callDS_all_cells_in_unit_interval (amp : ℚ → ℚ) (rng : ℕ → ℚ)
    (side_exp x y : ℕ) (hx : x < 2 ^ side_exp + 1) (hy : y < 2 ^ side_exp + 1) :
    0 ≤ (callDS amp rng side_exp).get x y ∧ (callDS amp rng side_exp).get x y ≤ 1 := by
  have h : heightsIn01 (callDS amp rng side_exp) := by
    unfold callDS
    exact divide_in01 amp rng _ _
      (initCorners_in01 (mkTerrain_in01 _ _) (by norm_num))
  exact h x y

/-- Witness for C1 at side_exponent 1, cell (0, 0). -/
theorem callDS_all_cells_in_unit_interval_witness :
    (0 : ℕ) < 2 ^ 1 + 1 ∧
      (0 ≤ (callDS (fun _ => 0) (fun _ => 0) 1).get 0 0 ∧
        (callDS (fun _ => 0) (fun _ => 0) 1).get 0 0 ≤ 1) := by
  refine ⟨by norm_num, ?_⟩
  exact callDS_all_cells_in_unit_interval (fun _ => 0) (fun _ => 0) 1 0 0
    (by norm_num) (by norm_num)

/-- Claim C5: every square-phase and diamond-phase update applies the hard
clamping policy (above 1 the cell becomes exactly 1, below 0 exactly 0,
otherwise mean + offset unmodified), and both updates write exactly the
clamped mean-plus-offset into the target cell. -/
theorem update_clamping_policy :
    (∀ v : ℚ, clampVal v = if 1 < v then 1 else if v < 0 then 0 else v) ∧
    (∀ (amp : ℚ → ℚ) (rng : ℕ → ℚ) (st : Terrain × ℕ) (x y s : ℕ),
      (updateSquare amp rng st x y s).1.get x y =
        clampVal (squareMean st.1 x y (s / 2) +
          (rng st.2 - 1/2) * amp (dsFreq st.1.length s))) ∧
    (∀ (amp : ℚ → ℚ) (rng : ℕ → ℚ) (st : Terrain × ℕ) (x y s : ℕ),
      (updateDiamond amp rng st x y s).1.get x y =
        clampVal (diamondMean st.1 x y (s / 2) +
          (rng st.2 - 1/2) * amp (dsFreq st.1.length s))) := by
  refine ⟨fun v => ?_, updateSquare_get_self, updateDiamond_get_self⟩
  unfold clampVal
  split_ifs with h1 h2 h3 h4 h5 <;>
    first
      | rfl
      | linarith
      | exact absurd ⟨by linarith, by linarith⟩ h1

/-- Claim C10: a single _update_square or _update_diamond call mutates only
the cell (x, y): any other cell keeps its previous value, and width and
length are unchanged. -/
theorem update_frame_single_cell (amp : ℚ → ℚ) (rng : ℕ → ℚ) (st : Terrain × ℕ)
    (x y s a b : ℕ) (h : ¬ (a = x ∧ b = y)) :
    (updateSquare amp rng st x y s).1.get a b = st.1.get a b ∧
    (updateSquare amp rng st x y s).1.width = st.1.width ∧
    (updateSquare amp rng st x y s).1.length = st.1.length ∧
    (updateDiamond amp rng st x y s).1.get a b = st.1.get a b ∧
    (updateDiamond amp rng st x y s).1.width = st.1.width ∧
    (updateDiamond amp rng st x y s).1.length = st.1.length := by
  exact ⟨updateSquare_heights_ne amp rng st x y s a b h, rfl, rfl,
    updateDiamond_heights_ne amp rng st x y s a b h, rfl, rfl⟩

/-- Witness for C10 at a concrete update and a concrete other cell. -/
theorem update_frame_single_cell_witness :
    ¬ ((0 : ℕ) = 1 ∧ (0 : ℕ) = 1) ∧
      ((updateSquare (fun _ => 1) (fun _ => 0) (mkTerrain 3 3, 0) 1 1 2).1.get 0 0 =
          (mkTerrain 3 3, 0).1.get 0 0 ∧
        (updateSquare (fun _ => 1) (fun _ => 0) (mkTerrain 3 3, 0) 1 1 2).1.width =
          (mkTerrain 3 3, 0).1.width ∧
        (updateSquare (fun _ => 1) (fun _ => 0) (mkTerrain 3 3, 0) 1 1 2).1.length =
          (mkTerrain 3 3, 0).1.length ∧
        (updateDiamond (fun _ => 1) (fun _ => 0) (mkTerrain 3 3, 0) 1 1 2).1.get 0 0 =
          (mkTerrain 3 3, 0).1.get 0 0 ∧
        (updateDiamond (fun _ => 1) (fun _ => 0) (mkTerrain 3 3, 0) 1 1 2).1.width =
          (mkTerrain 3 3, 0).1.width ∧
        (updateDiamond (fun _ => 1) (fun _ => 0) (mkTerrain 3 3, 0) 1 1 2).1.length =
          (mkTerrain 3 3, 0).1.length) := by
  refine ⟨by decide, ?_⟩
  exact update_frame_single_cell (fun _ => 1) (fun _ => 0) (mkTerrain 3 3, 0) 1 1 2 0 0
    (by decide)

/-! ### Frequency arithmetic (claim C6) -/

theorem dsFreq_pow (n k : ℕ) (h1 : 1 ≤ k) (h2 : k ≤ n) :
    dsFreq (2 ^ n + 1) (2 ^ k) = 2 ^ (n - k) := by
  unfold dsFreq
  have hsplit : (2 : ℕ) ^ n = 2 ^ k * 2 ^ (n - k) := by
    rw [← pow_add]
    congr 1
    omega
  have hpos : 0 < (2 : ℕ) ^ k := pow_pos (by norm_num) k
  have hone : 1 < (2 : ℕ) ^ k := by
    have := Nat.le_self_pow (by omega : k ≠ 0) 2
    omega
  rw [hsplit, Nat.mul_add_div hpos]
  rw [Nat.div_eq_of_lt hone]
  omega

/-- Counterexample to claim C6 as stated: at side_len = 3, square_len = 2 the
code divides 3 by 2 with integer division, so the amplitude function receives
frequency 1, not side_len / square_len = 3/2; with amplitude the identity and
a draw of 1, the written cell is 1/2, while the literal spec formula gives 3/4. -/
theorem update_offset_frequency_cex :
    (updateSquare (fun q => q) (fun _ => 1) (mkTerrain 3 3, 0) 1 1 2).1.get 1 1 = 1/2 ∧
    clampVal (squareMean (mkTerrain 3 3) 1 1 1 + ((1 : ℚ) - 1/2) * ((3 : ℚ) / 2)) = 3/4 ∧
    (1/2 : ℚ) ≠ 3/4 := by
  refine ⟨?_, ?_, by norm_num⟩
  · rw [updateSquare_get_self]
    norm_num [squareMean, mkTerrain, Terrain.get, dsFreq, clampVal]
  · norm_num [squareMean, mkTerrain, Terrain.get, clampVal]

/-- Claim C6 (amended): the offset applied at each update is the draw minus
1/2 times amplitude_function(frequency), where frequency is the integer
(floor) quotient terrain.length / subdivision_length; for side_len = 2^n + 1
and subdivision length 2^k (1 <= k <= n, the lengths actually used) this is
exactly 2^(n-k), and it doubles from each recursion level to the next. -/
theorem update_offset_frequency (n k : ℕ) (h1 : 1 ≤ k) (h2 : k ≤ n) :
    dsFreq (2 ^ n + 1) (2 ^ k) = 2 ^ (n - k) ∧
    (k < n → 2 * dsFreq (2 ^ n + 1) (2 ^ (k + 1)) = dsFreq (2 ^ n + 1) (2 ^ k)) ∧
    (∀ (amp : ℚ → ℚ) (rng : ℕ → ℚ) (st : Terrain × ℕ) (x y : ℕ),
      st.1.length = 2 ^ n + 1 →
        (updateSquare amp rng st x y (2 ^ k)).1.get x y =
          clampVal (squareMean st.1 x y (2 ^ k / 2) +
            (rng st.2 - 1/2) * amp ((2 ^ (n - k) : ℕ))) ∧
        (updateDiamond amp rng st x y (2 ^ k)).1.get x y =
          clampVal (diamondMean st.1 x y (2 ^ k / 2) +
            (rng st.2 - 1/2) * amp ((2 ^ (n - k) : ℕ)))) := by
  refine ⟨dsFreq_pow n k h1 h2, fun hk => ?_, fun amp rng st x y hL => ?_⟩
  · rw [dsFreq_pow n k h1 h2, dsFreq_pow n (k + 1) (by omega) (by omega)]
    have he : n - (k + 1) + 1 = n - k := by omega
    rw [← he, pow_succ]
    ring
  · constructor
    · rw [updateSquare_get_self, hL, dsFreq_pow n k h1 h2]
    · rw [updateDiamond_get_self, hL, dsFreq_pow n k h1 h2]

/-- Witness for the amended C6 at n = 2, k = 1. -/
theorem update_offset_frequency_witness :
    (1 : ℕ) ≤ 1 ∧ (1 : ℕ) ≤ 2 ∧ dsFreq (2 ^ 2 + 1) (2 ^ 1) = 2 ^ (2 - 1) :=
  ⟨le_refl 1, by norm_num, (update_offset_frequency 2 1 (le_refl 1) (by norm_num)).1⟩

/-! ### Entry behaviour for a negative exponent (claim C7) -/

/-- Claim C7 evaluated on the code: __call__ performs no validation; for
side_exponent = -1, Python 2 computes side_len = 2 ** -1 + 1 = 1.5, and the
spec-modelled Terrain constructor check (InvalidDimension iff a dimension
is <= 0) does not fire, so no InvalidDimension is raised at entry. -/
theorem negative_side_exp_no_invalid_dimension :
    sideLenQ (-1) = 3/2 ∧
    terrainInvalidDim (sideLenQ (-1)) (sideLenQ (-1)) = false := by
  have h : sideLenQ (-1) = 3/2 := by
    unfold sideLenQ
    norm_num
  refine ⟨h, ?_⟩
  rw [h]
  norm_num [terrainInvalidDim]

/-! ### Recursion depth of _divide (claim C8) -/

theorem divideSquareLens_pow (n : ℕ) :
    divideSquareLens (2 ^ n) = (List.range (n + 1)).map (fun i => 2 ^ (n - i)) := by
  induction n with
  | zero =>
    rw [divideSquareLens]
    norm_num
  | succ n ih =>
    rw [divideSquareLens]
    have h2 : 2 ^ (n + 1) / 2 = 2 ^ n := by
      rw [pow_succ]
      exact Nat.mul_div_cancel _ (by norm_num)
    have hpos : 0 < (2 : ℕ) ^ n := pow_pos (by norm_num) n
    rw [if_neg (by omega), h2, ih]
    conv_rhs => rw [List.range_succ_eq_map]
    simp only [List.map_cons, List.map_map, Nat.sub_zero]
    congr 1
    apply List.map_congr_left
    intro i hi
    simp only [Function.comp_apply]
    congr 1
    omega

/-- Claim C8: generation is total, and the recursion of _divide runs for
exactly side_exponent + 1 levels: starting from square_len = 2^n it visits
square_len = 2^n, 2^(n-1), ..., 1, and at square_len = 1 (half = 0 < 1) the
recursion stops, returning the terrain unchanged. -/
theorem divide_level_count (n : ℕ) :
    divideSquareLens (2 ^ n) = (List.range (n + 1)).map (fun i => 2 ^ (n - i)) ∧
    (divideSquareLens (2 ^ n)).length = n + 1 ∧
    (∀ (amp : ℚ → ℚ) (rng : ℕ → ℚ) (st : Terrain × ℕ), divide amp rng st 1 = st) := by
  refine ⟨divideSquareLens_pow n, ?_, ?_⟩
  · rw [divideSquareLens_pow n]
    simp
  · intro amp rng st
    rw [divide]
    norm_num

/-! ### Gradient initialization of the Perlin generator (claim C9) -/

/-- Counterexample to claim C9 as stated: for a 1 x 1 grid of squares the code
allocates exactly one gradient vector (one per grid cell), while a 1 x 1 grid
of cells has (1+1) * (1+1) = 4 corners. -/
theorem initGradients_per_cell_cex :
    ((initGradients (fun _ => 0) 1 1 1).map List.length).sum = 1 ∧
    (1 : ℕ) ≠ (1 + 1) * (1 + 1) := by
  constructor
  · rfl
  · decide

/-- Claim C9 (amended): _init_gradients produces a length_in_squares x
width_in_squares grid of gradient vectors, one per grid cell (not per corner),
and each vector has squared magnitude exactly vec_magnitude^2 (so its
magnitude is capped at the given magnitude): the first component squared plus
the quantity under the square root equals vec_magnitude^2, that quantity is
nonnegative, and the first component squared is at most vec_magnitude^2. -/
theorem initGradients_grid_and_magnitude (rng : ℕ → ℚ) (w l : ℕ) (mag : ℚ)
    (hw : 0 < w) (hl : 0 < l) (hr : ∀ k, 0 ≤ rng k ∧ rng k < 1) :
    (initGradients rng w l mag).length = l ∧
    (∀ row ∈ initGradients rng w l mag, row.length = w) ∧
    (∀ row ∈ initGradients rng w l mag, ∀ v ∈ row,
      v.1 ^ 2 + v.2 = mag ^ 2 ∧ 0 ≤ v.2 ∧ v.1 ^ 2 ≤ mag ^ 2) := by
  refine ⟨by simp [initGradients], ?_, ?_⟩
  · intro row hrow
    simp only [initGradients, List.mem_map, List.mem_range] at hrow
    obtain ⟨y, hy, rfl⟩ := hrow
    simp
  · intro row hrow v hv
    simp only [initGradients, List.mem_map, List.mem_range] at hrow
    obtain ⟨y, hy, rfl⟩ := hrow
    simp only [List.mem_map, List.mem_range] at hv
    obtain ⟨x, hx, rfl⟩ := hv
    have h := hr (x * l + y)
    have hsq : rng (x * l + y) ^ 2 ≤ 1 := by nlinarith [h.1, h.2]
    refine ⟨?_, ?_, ?_⟩
    · simp only [gradYSq]
      ring
    · simp only [gradYSq, gradXVal]
      nlinarith [sq_nonneg mag]
    · simp only [gradXVal]
      nlinarith [sq_nonneg mag]

/-- Witness for the amended C9 at a 1 x 1 grid with magnitude 1. -/
theorem initGradients_grid_and_magnitude_witness :
    (0 : ℕ) < 1 ∧ (initGradients (fun _ => 0) 1 1 1).length = 1 :=
  ⟨Nat.one_pos,
    (initGradients_grid_and_magnitude (fun _ => 0) 1 1 1 Nat.one_pos Nat.one_pos
      (fun _ => by norm_num)).1⟩

/-! ### Diamond-phase neighbour selection (claim C4) -/

theorem filter_four {α : Type} (p : α → Bool) (a b c d : α) :
    List.filter p [a, b, c, d] =
      (if p a then [a] else []) ++ (if p b then [b] else []) ++
      (if p c then [c] else []) ++ (if p d then [d] else []) := by
  simp only [List.filter_cons, List.filter_nil]
  split_ifs <;> simp

/-- Claim C4: at coordinates of the shape the diamond phase actually visits
(both divisible by half_len, as are width - 1 and length - 1), the neighbour
list of _update_diamond is exactly the list of in-grid orthogonal neighbours
at distance half_len (out-of-grid neighbours are excluded, not wrapped or
mirrored), the divisor of the mean is its count, and that count is 4 in the
interior and 3 when the centre lies on exactly one grid edge. -/
theorem diamond_neighbour_selection (ter : Terrain) (x y half_len : ℕ)
    (hh : 0 < half_len) (hdx : half_len ∣ x) (hdy : half_len ∣ y)
    (hdw : half_len ∣ (ter.width - 1)) (hdl : half_len ∣ (ter.length - 1))
    (hxw : x < ter.width) (hyl : y < ter.length) :
    diamondNeighbours ter x y half_len = specDiamondNeighbours ter x y half_len ∧
    ((x ≠ 0 ∧ y ≠ 0 ∧ x ≠ ter.width - 1 ∧ y ≠ ter.length - 1) →
      (diamondNeighbours ter x y half_len).length = 4) ∧
    (((x = 0 ∧ y ≠ 0 ∧ x ≠ ter.width - 1 ∧ y ≠ ter.length - 1) ∨
      (x ≠ 0 ∧ y = 0 ∧ x ≠ ter.width - 1 ∧ y ≠ ter.length - 1) ∨
      (x ≠ 0 ∧ y ≠ 0 ∧ x = ter.width - 1 ∧ y ≠ ter.length - 1) ∨
      (x ≠ 0 ∧ y ≠ 0 ∧ x ≠ ter.width - 1 ∧ y = ter.length - 1)) →
      (diamondNeighbours ter x y half_len).length = 3) := by
  have hL : half_len ≤ x ↔ x ≠ 0 :=
    ⟨fun h hx0 => by omega, fun h => Nat.le_of_dvd (Nat.pos_of_ne_zero h) hdx⟩
  have hU : half_len ≤ y ↔ y ≠ 0 :=
    ⟨fun h hy0 => by omega, fun h => Nat.le_of_dvd (Nat.pos_of_ne_zero h) hdy⟩
  have hR : x + half_len < ter.width ↔ x ≠ ter.width - 1 := by
    constructor
    · intro h hx0
      omega
    · intro h
      have hd : half_len ∣ (ter.width - 1 - x) := Nat.dvd_sub' hdw hdx
      have hlt : x < ter.width - 1 := by omega
      have := Nat.le_of_dvd (by omega) hd
      omega
  have hD : y + half_len < ter.length ↔ y ≠ ter.length - 1 := by
    constructor
    · intro h hy0
      omega
    · intro h
      have hd : half_len ∣ (ter.length - 1 - y) := Nat.dvd_sub' hdl hdy
      have hlt : y < ter.length - 1 := by omega
      have := Nat.le_of_dvd (by omega) hd
      omega
  have t1 : ((x : ℤ) - half_len).toNat = x - half_len := by omega
  have t2 : ((x : ℤ) + half_len).toNat = x + half_len := by omega
  have t3 : ((y : ℤ) - half_len).toNat = y - half_len := by omega
  have t4 : ((y : ℤ) + half_len).toNat = y + half_len := by omega
  have t5 : ((x : ℤ)).toNat = x := by omega
  have t6 : ((y : ℤ)).toNat = y := by omega
  have hc1 : (0 ≤ (x : ℤ) - half_len ∧ (x : ℤ) - half_len < (ter.width : ℤ) ∧
      0 ≤ (y : ℤ) ∧ (y : ℤ) < (ter.length : ℤ)) ↔ x ≠ 0 := by
    rw [← hL]
    constructor
    · rintro ⟨h, -, -, -⟩
      omega
    · intro h
      refine ⟨by omega, by omega, by omega, by omega⟩
  have hc2 : (0 ≤ (x : ℤ) ∧ (x : ℤ) < (ter.width : ℤ) ∧
      0 ≤ (y : ℤ) - half_len ∧ (y : ℤ) - half_len < (ter.length : ℤ)) ↔ y ≠ 0 := by
    rw [← hU]
    constructor
    · rintro ⟨-, -, h, -⟩
      omega
    · intro h
      refine ⟨by omega, by omega, by omega, by omega⟩
  have hc3 : (0 ≤ (x : ℤ) + half_len ∧ (x : ℤ) + half_len < (ter.width : ℤ) ∧
      0 ≤ (y : ℤ) ∧ (y : ℤ) < (ter.length : ℤ)) ↔ x ≠ ter.width - 1 := by
    rw [← hR]
    constructor
    · rintro ⟨-, h, -, -⟩
      omega
    · intro h
      refine ⟨by omega, by omega, by omega, by omega⟩
  have hc4 : (0 ≤ (x : ℤ) ∧ (x : ℤ) < (ter.width : ℤ) ∧
      0 ≤ (y : ℤ) + half_len ∧ (y : ℤ) + half_len < (ter.length : ℤ)) ↔ y ≠ ter.length - 1 := by
    rw [← hD]
    constructor
    · rintro ⟨-, -, -, h⟩
      omega
    · intro h
      refine ⟨by omega, by omega, by omega, by omega⟩
  refine ⟨?_, ?_, ?_⟩
  · unfold specDiamondNeighbours diamondNeighbours
    rw [filter_four]
    simp only [decide_eq_true_eq, List.map_append,
      apply_ite (List.map (fun p : ℤ × ℤ => ter.get p.1.toNat p.2.toNat)),
      List.map_cons, List.map_nil]
    rw [if_congr hc1 (by rw [t1, t6]) rfl, if_congr hc2 (by rw [t3, t5]) rfl,
      if_congr hc3 (by rw [t2, t6]) rfl, if_congr hc4 (by rw [t4, t5]) rfl]
  · rintro ⟨n1, n2, n3, n4⟩
    simp [diamondNeighbours, n1, n2, n3, n4]
  · rintro (⟨e1, e2, e3, e4⟩ | ⟨e1, e2, e3, e4⟩ | ⟨e1, e2, e3, e4⟩ | ⟨e1, e2, e3, e4⟩) <;>
      simp [diamondNeighbours, e1, e2, e3, e4] <;>
      rw [if_neg (by omega)] <;> simp

/-- Witness for C4 at the interior centre (1, 1) of a 3 x 3 terrain with
half_len 1. -/
theorem diamond_neighbour_selection_witness :
    (0 : ℕ) < 1 ∧ (diamondNeighbours (mkTerrain 3 3) 1 1 1).length = 4 :=
  ⟨Nat.one_pos,
    (diamond_neighbour_selection (mkTerrain 3 3) 1 1 1 Nat.one_pos (one_dvd _) (one_dvd _)
      (one_dvd _) (one_dvd _) (by norm_num [mkTerrain]) (by norm_num [mkTerrain])).2.1
      (by norm_num [mkTerrain])⟩

/-! ### Corner preservation (claim C2) -/

theorem two_pow_split (k : ℕ) (hk : 1 ≤ k) : 2 ^ (k - 1) * 2 = 2 ^ k := by
  rw [← pow_succ]
  congr 1
  omega

theorem two_pow_succ_div_two (k : ℕ) : 2 ^ (k + 1) / 2 = 2 ^ k := by
  rw [pow_succ]
  exact Nat.mul_div_cancel _ (by norm_num)

theorem two_pow_half (k : ℕ) (hk : 1 ≤ k) : 2 ^ k / 2 = 2 ^ (k - 1) := by
  have h := two_pow_succ_div_two (k - 1)
  have h2 : k - 1 + 1 = k := by omega
  rw [h2] at h
  exact h

/-- A square or diamond centre column 2^(k-1) + 2^k * i never equals the
corner column 2^n, because 2^n has no odd factor above 1. -/
theorem mid_ne_two_pow (n k i : ℕ) (hk1 : 1 ≤ k) (hk2 : k ≤ n) :
    2 ^ (k - 1) + 2 ^ k * i ≠ 2 ^ n := by
  intro h
  have h1 : (2 : ℕ) ^ k = 2 ^ (k - 1) * 2 := (two_pow_split k hk1).symm
  have h2 : (2 : ℕ) ^ n = 2 ^ (k - 1) * 2 ^ (n - k + 1) := by
    rw [← pow_add]
    congr 1
    omega
  rw [h1, h2] at h
  have h3 : 2 ^ (k - 1) * (1 + 2 * i) = 2 ^ (k - 1) * 2 ^ (n - k + 1) := by
    rw [Nat.mul_add, Nat.mul_one, ← Nat.mul_assoc]
    exact h
  have h4 : 1 + 2 * i = 2 ^ (n - k + 1) :=
    Nat.eq_of_mul_eq_mul_left (pow_pos (by norm_num) _) h3
  have h5 : (2 : ℕ) ∣ 2 ^ (n - k + 1) := dvd_pow_self 2 (by omega)
  omega

theorem two_pow_mod_two_pow (n k : ℕ) (hk : k ≤ n) : 2 ^ n % 2 ^ k = 0 := by
  obtain ⟨c, hc⟩ := pow_dvd_pow 2 hk
  rw [hc]
  exact Nat.mul_mod_right _ _

theorem squarePass_dims (amp : ℚ → ℚ) (rng : ℕ → ℚ) (st : Terrain × ℕ) (s : ℕ) :
    (squarePass amp rng st s).1.width = st.1.width ∧
    (squarePass amp rng st s).1.length = st.1.length := by
  unfold squarePass
  constructor
  · refine foldl_frame_inv _ (fun b : Terrain × ℕ => b.1.width) (fun _ => True) _
      (fun _ _ _ _ => trivial) ?_ st trivial
    intro b y _ _
    refine foldl_frame_inv _ (fun b2 : Terrain × ℕ => b2.1.width) (fun _ => True) _
      (fun _ _ _ _ => trivial) (fun b2 x _ _ => ?_) b trivial
    rfl
  · refine foldl_frame_inv _ (fun b : Terrain × ℕ => b.1.length) (fun _ => True) _
      (fun _ _ _ _ => trivial) ?_ st trivial
    intro b y _ _
    refine foldl_frame_inv _ (fun b2 : Terrain × ℕ => b2.1.length) (fun _ => True) _
      (fun _ _ _ _ => trivial) (fun b2 x _ _ => ?_) b trivial
    rfl

theorem diamondPass_dims (amp : ℚ → ℚ) (rng : ℕ → ℚ) (st : Terrain × ℕ) (s : ℕ) :
    (diamondPass amp rng st s).1.width = st.1.width ∧
    (diamondPass amp rng st s).1.length = st.1.length := by
  unfold diamondPass
  constructor
  · refine foldl_frame_inv _ (fun b : Terrain × ℕ => b.1.width) (fun _ => True) _
      (fun _ _ _ _ => trivial) ?_ st trivial
    intro b y _ _
    refine foldl_frame_inv _ (fun b2 : Terrain × ℕ => b2.1.width) (fun _ => True) _
      (fun _ _ _ _ => trivial) (fun b2 x _ _ => ?_) b trivial
    rfl
  · refine foldl_frame_inv _ (fun b : Terrain × ℕ => b.1.length) (fun _ => True) _
      (fun _ _ _ _ => trivial) ?_ st trivial
    intro b y _ _
    refine foldl_frame_inv _ (fun b2 : Terrain × ℕ => b2.1.length) (fun _ => True) _
      (fun _ _ _ _ => trivial) (fun b2 x _ _ => ?_) b trivial
    rfl

theorem divide_dims (amp : ℚ → ℚ) (rng : ℕ → ℚ) :
    ∀ (s : ℕ) (st : Terrain × ℕ), (divide amp rng st s).1.width = st.1.width ∧
      (divide amp rng st s).1.length = st.1.length := by
  intro s
  induction s using Nat.strong_induction_on with
  | _ s ih =>
    intro st
    rw [divide]
    split
    · exact ⟨rfl, rfl⟩
    · next hcond =>
      have h1 := ih (s / 2) (by omega)
        (diamondPass amp rng (squarePass amp rng st s) s)
      have h2 := diamondPass_dims amp rng (squarePass amp rng st s) s
      have h3 := squarePass_dims amp rng st s
      exact ⟨by rw [h1.1, h2.1, h3.1], by rw [h1.2, h2.2, h3.2]⟩

theorem squarePass_corner_frame (amp : ℚ → ℚ) (rng : ℕ → ℚ) (n k : ℕ)
    (hk1 : 1 ≤ k) (hk2 : k ≤ n) (st : Terrain × ℕ)
    (hW : st.1.width = 2 ^ n + 1)
    (ca cb : ℕ) (hca : ca = 0 ∨ ca = 2 ^ n) :
    (squarePass amp rng st (2 ^ k)).1.heights ca cb = st.1.heights ca cb := by
  unfold squarePass
  refine foldl_frame_inv _ (fun b : Terrain × ℕ => b.1.heights ca cb)
    (fun b : Terrain × ℕ => b.1.width = 2 ^ n + 1) _ ?_ ?_ st hW
  · intro b y _ hb
    refine foldl_preserve _ (fun b2 : Terrain × ℕ => b2.1.width = 2 ^ n + 1) _
      (fun b2 x _ hb2 => by simpa using hb2) b hb
  · intro b y _ hb
    refine foldl_frame_inv _ (fun b2 : Terrain × ℕ => b2.1.heights ca cb)
      (fun _ => True) _ (fun _ _ _ _ => trivial) ?_ b trivial
    intro b2 x hx _
    rw [hb] at hx
    obtain ⟨i, rfl, hxb⟩ := (mem_pyRange (pow_pos (by norm_num) k)).mp hx
    apply updateSquare_heights_ne
    rintro ⟨rfl, -⟩
    rw [two_pow_half k hk1] at hca
    have hp : 0 < (2 : ℕ) ^ (k - 1) := pow_pos (by norm_num) _
    rcases hca with h0 | h0
    · omega
    · exact mid_ne_two_pow n k i hk1 hk2 h0

theorem diamondPass_corner_frame (amp : ℚ → ℚ) (rng : ℕ → ℚ) (n k : ℕ)
    (hk1 : 1 ≤ k) (hk2 : k ≤ n) (st : Terrain × ℕ)
    (hW : st.1.width = 2 ^ n + 1)
    (ca cb : ℕ) (hca : ca = 0 ∨ ca = 2 ^ n) (hcb : cb = 0 ∨ cb = 2 ^ n) :
    (diamondPass amp rng st (2 ^ k)).1.heights ca cb = st.1.heights ca cb := by
  unfold diamondPass
  refine foldl_frame_inv _ (fun b : Terrain × ℕ => b.1.heights ca cb)
    (fun b : Terrain × ℕ => b.1.width = 2 ^ n + 1) _ ?_ ?_ st hW
  · intro b y _ hb
    refine foldl_preserve _ (fun b2 : Terrain × ℕ => b2.1.width = 2 ^ n + 1) _
      (fun b2 x _ hb2 => by simpa using hb2) b hb
  · intro b y _ hb
    refine foldl_frame_inv _ (fun b2 : Terrain × ℕ => b2.1.heights ca cb)
      (fun _ => True) _ (fun _ _ _ _ => trivial) ?_ b trivial
    intro b2 x hx _
    rw [hb] at hx
    obtain ⟨i, rfl, hxb⟩ := (mem_pyRange (pow_pos (by norm_num) k)).mp hx
    apply updateDiamond_heights_ne
    rintro ⟨hcax, rfl⟩
    rw [two_pow_half k hk1] at hcax
    have hp : 0 < (2 : ℕ) ^ (k - 1) := pow_pos (by norm_num) _
    have hlt : (2 : ℕ) ^ (k - 1) < 2 ^ k := by
      have := two_pow_split k hk1
      omega
    have hmod : (cb + 2 ^ (k - 1)) % 2 ^ k = 2 ^ (k - 1) := by
      rcases hcb with h0 | h0
      · rw [h0, Nat.zero_add]
        exact Nat.mod_eq_of_lt hlt
      · rw [h0, Nat.add_mod, two_pow_mod_two_pow n k hk2, Nat.zero_add,
          Nat.mod_mod_of_dvd _ (dvd_refl _)]
        exact Nat.mod_eq_of_lt hlt
    rw [hmod] at hcax
    rcases hca with h0 | h0
    · omega
    · rw [h0] at hcax
      exact mid_ne_two_pow n k i hk1 hk2 hcax.symm

theorem divide_corner_frame (amp : ℚ → ℚ) (rng : ℕ → ℚ) (n : ℕ) :
    ∀ k, k ≤ n → ∀ st : Terrain × ℕ, st.1.width = 2 ^ n + 1 →
      ∀ ca cb, (ca = 0 ∨ ca = 2 ^ n) → (cb = 0 ∨ cb = 2 ^ n) →
        (divide amp rng st (2 ^ k)).1.heights ca cb = st.1.heights ca cb := by
  intro k
  induction k with
  | zero =>
    intro _ st _ ca cb _ _
    rw [divide]
    norm_num
  | succ k ih =>
    intro hk st hW ca cb hca hcb
    rw [divide, two_pow_succ_div_two k]
    have hp : 0 < (2 : ℕ) ^ k := pow_pos (by norm_num) k
    rw [if_neg (by omega)]
    have hW1 : (squarePass amp rng st (2 ^ (k + 1))).1.width = 2 ^ n + 1 := by
      rw [(squarePass_dims amp rng st (2 ^ (k + 1))).1, hW]
    have hW2 : (diamondPass amp rng (squarePass amp rng st (2 ^ (k + 1)))
        (2 ^ (k + 1))).1.width = 2 ^ n + 1 := by
      rw [(diamondPass_dims amp rng _ (2 ^ (k + 1))).1, hW1]
    rw [ih (by omega) _ hW2 ca cb hca hcb]
    rw [diamondPass_corner_frame amp rng n (k + 1) (by omega) hk _ hW1 ca cb hca hcb]
    exact squarePass_corner_frame amp rng n (k + 1) (by omega) hk st hW ca cb hca

theorem initCorners_corner_vals (m : ℕ) (hm : 1 ≤ m) (v : ℚ) :
    (initCorners (mkTerrain (m + 1) (m + 1)) v).heights 0 0 = v ∧
    (initCorners (mkTerrain (m + 1) (m + 1)) v).heights 0 m = v ∧
    (initCorners (mkTerrain (m + 1) (m + 1)) v).heights m 0 = v ∧
    (initCorners (mkTerrain (m + 1) (m + 1)) v).heights m m = v := by
  have h1 : ¬(0 = m) := by omega
  have h2 : ¬(m = 0) := by omega
  refine ⟨?_, ?_, ?_, ?_⟩ <;> simp [initCorners, Terrain.set, mkTerrain, h1, h2]

/-- Claim C2: for every side_exponent >= 0 the four corner cells of the
Terrain returned by DiamondSquareGenerator.__call__ still hold the seed value
0.5: they are seeded by _initialize_corners and no square-phase or
diamond-phase update ever writes to an exact corner. -/
theorem callDS_corners_keep_seed (amp : ℚ → ℚ) (rng : ℕ → ℚ) (side_exp : ℕ) :
    (callDS amp rng side_exp).get 0 0 = 1/2 ∧
    (callDS amp rng side_exp).get 0 (2 ^ side_exp) = 1/2 ∧
    (callDS amp rng side_exp).get (2 ^ side_exp) 0 = 1/2 ∧
    (callDS amp rng side_exp).get (2 ^ side_exp) (2 ^ side_exp) = 1/2 := by
  have hm : 0 < 2 ^ side_exp := pow_pos (by norm_num : (0 : ℕ) < 2) side_exp
  have hsub : 2 ^ side_exp + 1 - 1 = 2 ^ side_exp := by omega
  have hinit := initCorners_corner_vals (2 ^ side_exp) hm (1/2)
  have hframe := divide_corner_frame amp rng side_exp side_exp (le_refl _)
    (initCorners (mkTerrain (2 ^ side_exp + 1) (2 ^ side_exp + 1)) (1/2), 0) rfl
  simp only [callDS, Terrain.get, hsub]
  exact ⟨by rw [hframe 0 0 (Or.inl rfl) (Or.inl rfl)]; exact hinit.1,
    by rw [hframe 0 (2 ^ side_exp) (Or.inl rfl) (Or.inr rfl)]; exact hinit.2.1,
    by rw [hframe (2 ^ side_exp) 0 (Or.inr rfl) (Or.inl rfl)]; exact hinit.2.2.1,
    by rw [hframe (2 ^ side_exp) (2 ^ side_exp) (Or.inr rfl) (Or.inr rfl)]; exact hinit.2.2.2⟩

/-! ### Zero-amplitude run (claim C3): residue arithmetic -/

/-- Decomposition of a point whose residue is the half step: subtracting or
adding the half step lands on the coarse lattice. -/
theorem mid_residues (k x : ℕ) (hk : 1 ≤ k) (hx : x % 2 ^ k = 2 ^ (k - 1)) :
    2 ^ (k - 1) ≤ x ∧ (x - 2 ^ (k - 1)) % 2 ^ k = 0 ∧ (x + 2 ^ (k - 1)) % 2 ^ k = 0 := by
  have hdm := Nat.div_add_mod x (2 ^ k)
  rw [hx] at hdm
  have hsp : 2 ^ (k - 1) * 2 = 2 ^ k := two_pow_split k hk
  refine ⟨by omega, ?_, ?_⟩
  · have h1 : x - 2 ^ (k - 1) = 2 ^ k * (x / 2 ^ k) := by omega
    rw [h1]
    exact Nat.mul_mod_right _ _
  · have h1 : x + 2 ^ (k - 1) = 2 ^ k * (x / 2 ^ k + 1) := by
      have h2 : 2 ^ k * (x / 2 ^ k + 1) = 2 ^ k * (x / 2 ^ k) + 2 ^ k := by ring
      omega
    rw [h1]
    exact Nat.mul_mod_right _ _

theorem mod_eq_of_lt_pow (k : ℕ) (hk : 1 ≤ k) : 2 ^ (k - 1) % 2 ^ k = 2 ^ (k - 1) := by
  have hsp : 2 ^ (k - 1) * 2 = 2 ^ k := two_pow_split k hk
  have hp : 0 < (2 : ℕ) ^ (k - 1) := pow_pos (by norm_num) _
  exact Nat.mod_eq_of_lt (by omega)

/-- Decomposition of a coarse lattice point: adding the half step gives the
half residue, and subtracting it does too when the point is not zero. -/
theorem lattice_residues (k y : ℕ) (hk : 1 ≤ k) (hy : y % 2 ^ k = 0) :
    (y + 2 ^ (k - 1)) % 2 ^ k = 2 ^ (k - 1) ∧
    (y ≠ 0 → 2 ^ k ≤ y ∧ (y - 2 ^ (k - 1)) % 2 ^ k = 2 ^ (k - 1)) := by
  have hdm := Nat.div_add_mod y (2 ^ k)
  rw [hy] at hdm
  have hsp : 2 ^ (k - 1) * 2 = 2 ^ k := two_pow_split k hk
  have hp : 0 < (2 : ℕ) ^ (k - 1) := pow_pos (by norm_num) _
  constructor
  · have h1 : y + 2 ^ (k - 1) = 2 ^ (k - 1) + 2 ^ k * (y / 2 ^ k) := by omega
    rw [h1, Nat.add_mul_mod_self_left]
    exact mod_eq_of_lt_pow k hk
  · intro hne
    rcases Nat.eq_zero_or_pos (y / 2 ^ k) with hq | hq
    · rw [hq] at hdm
      omega
    · have hmul : 2 ^ k * (y / 2 ^ k - 1) + 2 ^ k = 2 ^ k * (y / 2 ^ k) := by
        rw [← Nat.mul_succ]
        congr 1
        omega
      refine ⟨by omega, ?_⟩
      have h1 : y - 2 ^ (k - 1) = 2 ^ (k - 1) + 2 ^ k * (y / 2 ^ k - 1) := by omega
      rw [h1, Nat.add_mul_mod_self_left]
      exact mod_eq_of_lt_pow k hk

/-- A point with the half residue stays at distance half from the upper
boundary 2^n of the grid. -/
theorem mid_add_le (n k x : ℕ) (hk1 : 1 ≤ k) (hk2 : k ≤ n) (hx : x % 2 ^ k = 2 ^ (k - 1))
    (hlt : x < 2 ^ n + 1) : x + 2 ^ (k - 1) ≤ 2 ^ n := by
  have hdm := Nat.div_add_mod x (2 ^ k)
  rw [hx] at hdm
  have hsp : 2 ^ (k - 1) * 2 = 2 ^ k := two_pow_split k hk1
  have hsA : 2 ^ k * 2 ^ (n - k) = 2 ^ n := by
    rw [← pow_add]
    congr 1
    omega
  have hp : 0 < (2 : ℕ) ^ (k - 1) := pow_pos (by norm_num) _
  have hqA : x / 2 ^ k < 2 ^ (n - k) := by
    by_contra hc
    push_neg at hc
    have := Nat.mul_le_mul_left (2 ^ k) hc
    omega
  have hle : 2 ^ k * (x / 2 ^ k + 1) ≤ 2 ^ k * 2 ^ (n - k) :=
    Nat.mul_le_mul_left _ (by omega)
  have hmul : 2 ^ k * (x / 2 ^ k + 1) = 2 ^ k * (x / 2 ^ k) + 2 ^ k := by ring
  omega

/-- A coarse lattice point other than 2^n stays at distance 2^k from the
upper boundary 2^n of the grid. -/
theorem lattice_add_le (n k x : ℕ) (hk2 : k ≤ n) (hx : x % 2 ^ k = 0)
    (hne : x ≠ 2 ^ n) (hlt : x < 2 ^ n + 1) : x + 2 ^ k ≤ 2 ^ n := by
  have hdm := Nat.div_add_mod x (2 ^ k)
  rw [hx] at hdm
  have hsA : 2 ^ k * 2 ^ (n - k) = 2 ^ n := by
    rw [← pow_add]
    congr 1
    omega
  have hqA : x / 2 ^ k < 2 ^ (n - k) := by
    by_contra hc
    push_neg at hc
    have := Nat.mul_le_mul_left (2 ^ k) hc
    omega
  have hle : 2 ^ k * (x / 2 ^ k + 1) ≤ 2 ^ k * 2 ^ (n - k) :=
    Nat.mul_le_mul_left _ (by omega)
  have hmul : 2 ^ k * (x / 2 ^ k + 1) = 2 ^ k * (x / 2 ^ k) + 2 ^ k := by ring
  omega

/-- A multiple of the half step has residue 0 or half modulo the full step. -/
theorem half_multiple_cases (k y : ℕ) (hk : 1 ≤ k) (hy : y % 2 ^ (k - 1) = 0) :
    y % 2 ^ k = 0 ∨ y % 2 ^ k = 2 ^ (k - 1) := by
  obtain ⟨j, hj⟩ := Nat.dvd_of_mod_eq_zero hy
  have hsp : 2 ^ (k - 1) * 2 = 2 ^ k := two_pow_split k hk
  rcases Nat.even_or_odd j with ⟨m, hm⟩ | ⟨m, hm⟩
  · left
    have h1 : y = 2 ^ k * m := by
      rw [hj, hm, ← hsp]
      ring
    rw [h1]
    exact Nat.mul_mod_right _ _
  · right
    have h1 : y = 2 ^ (k - 1) + 2 ^ k * m := by
      rw [hj, hm, ← hsp]
      ring
    rw [h1, Nat.add_mul_mod_self_left]
    exact mod_eq_of_lt_pow k hk

/-- Proof invariant: every in-grid point on the coarse lattice of step s
holds the seed value 1/2. -/
def latticeHalf (s W L : ℕ) (ter : Terrain) : Prop :=
  ∀ x y : ℕ, x < W → y < L → x % s = 0 → y % s = 0 → ter.heights x y = 1/2

/-- Proof invariant: every in-grid point whose residues both equal the half step
holds the seed value 1/2. -/
def centreHalf (s half W L : ℕ) (ter : Terrain) : Prop :=
  ∀ x y : ℕ, x < W → y < L → x % s = half → y % s = half → ter.heights x y = 1/2

/-- Combined state invariant for the zero-amplitude argument: fixed
dimensions and the coarse lattice at 1/2. -/
def dsInv (n k : ℕ) (b : Terrain × ℕ) : Prop :=
  b.1.width = 2 ^ n + 1 ∧ b.1.length = 2 ^ n + 1 ∧
  latticeHalf (2 ^ k) (2 ^ n + 1) (2 ^ n + 1) b.1

/-- dsInv together with the square centres at 1/2. -/
def dsInvC (n k : ℕ) (b : Terrain × ℕ) : Prop :=
  dsInv n k b ∧ centreHalf (2 ^ k) (2 ^ (k - 1)) (2 ^ n + 1) (2 ^ n + 1) b.1

theorem updateSquare_heights_self (amp : ℚ → ℚ) (rng : ℕ → ℚ) (st : Terrain × ℕ)
    (x y s : ℕ) :
    (updateSquare amp rng st x y s).1.heights x y =
      clampVal (squareMean st.1 x y (s / 2) +
        (rng st.2 - 1/2) * amp (dsFreq st.1.length s)) := by
  simp [updateSquare, Terrain.set]

theorem updateDiamond_heights_self (amp : ℚ → ℚ) (rng : ℕ → ℚ) (st : Terrain × ℕ)
    (x y s : ℕ) :
    (updateDiamond amp rng st x y s).1.heights x y =
      clampVal (diamondMean st.1 x y (s / 2) +
        (rng st.2 - 1/2) * amp (dsFreq st.1.length s)) := by
  simp [updateDiamond, Terrain.set]

theorem squarePass_zero_amp (amp : ℚ → ℚ) (rng : ℕ → ℚ) (hamp : ∀ f, amp f = 0)
    (n k : ℕ) (hk1 : 1 ≤ k) (hk2 : k ≤ n) (st : Terrain × ℕ)
    (hst : dsInv n k st) :
    dsInvC n k (squarePass amp rng st (2 ^ k)) := by
  obtain ⟨hW, hL, hlat⟩ := hst
  have hhalf : 2 ^ k / 2 = 2 ^ (k - 1) := two_pow_half k hk1
  have hp : 0 < (2 : ℕ) ^ (k - 1) := pow_pos (by norm_num) _
  have hps : 0 < (2 : ℕ) ^ k := pow_pos (by norm_num) _
  have hsp : 2 ^ (k - 1) * 2 = 2 ^ k := two_pow_split k hk1
  have hmemmod : ∀ x W : ℕ, x ∈ pyRange (2 ^ k / 2) W (2 ^ k) →
      x % 2 ^ k = 2 ^ (k - 1) := by
    intro x W hx
    obtain ⟨i, rfl, hxb⟩ := (mem_pyRange hps).mp hx
    rw [hhalf, Nat.add_mul_mod_self_left]
    exact mod_eq_of_lt_pow k hk1
  have hupd : ∀ (b : Terrain × ℕ) (x y : ℕ), x % 2 ^ k = 2 ^ (k - 1) →
      dsInv n k b → dsInv n k (updateSquare amp rng b x y (2 ^ k)) := by
    intro b x y hxm hb
    obtain ⟨hbW, hbL, hblat⟩ := hb
    refine ⟨by simpa using hbW, by simpa using hbL, ?_⟩
    intro a c haW hcL ha hc
    rw [updateSquare_heights_ne]
    · exact hblat a c haW hcL ha hc
    · rintro ⟨rfl, rfl⟩
      omega
  have hwrite : ∀ (b : Terrain × ℕ) (x y : ℕ),
      x % 2 ^ k = 2 ^ (k - 1) → y % 2 ^ k = 2 ^ (k - 1) →
      x < 2 ^ n + 1 → y < 2 ^ n + 1 → dsInv n k b →
      (updateSquare amp rng b x y (2 ^ k)).1.heights x y = 1/2 := by
    intro b x y hxm hym hxW hyL hb
    obtain ⟨hbW, hbL, hblat⟩ := hb
    rw [updateSquare_heights_self, hamp, mul_zero, hhalf]
    have hxr := mid_residues k x hk1 hxm
    have hyr := mid_residues k y hk1 hym
    have hxu := mid_add_le n k x hk1 hk2 hxm hxW
    have hyu := mid_add_le n k y hk1 hk2 hym hyL
    have hmean : squareMean b.1 x y (2 ^ (k - 1)) = 1/2 := by
      unfold squareMean Terrain.get
      rw [hblat _ _ (by omega) (by omega) hxr.2.1 hyr.2.1,
        hblat _ _ (by omega) (by omega) hxr.2.1 hyr.2.2,
        hblat _ _ (by omega) (by omega) hxr.2.2 hyr.2.1,
        hblat _ _ (by omega) (by omega) hxr.2.2 hyr.2.2]
      norm_num
    rw [hmean]
    exact clampVal_half
  constructor
  · unfold squarePass
    refine foldl_preserve _ (dsInv n k) _ ?_ st ⟨hW, hL, hlat⟩
    intro b y _ hb
    refine foldl_preserve _ (dsInv n k) _ ?_ b hb
    intro b2 x hx hb2
    exact hupd b2 x y (hmemmod x _ hx) hb2
  · intro cx cy hcxW hcyL hcx hcy
    unfold squarePass
    have hmemy : cy ∈ pyRange (2 ^ k / 2) st.1.length (2 ^ k) := by
      rw [hL, mem_pyRange hps]
      have hdm := Nat.div_add_mod cy (2 ^ k)
      exact ⟨cy / 2 ^ k, by rw [hhalf]; omega, hcyL⟩
    have hmemx : ∀ W : ℕ, W = 2 ^ n + 1 → cx ∈ pyRange (2 ^ k / 2) W (2 ^ k) := by
      intro W hWeq
      rw [hWeq, mem_pyRange hps]
      have hdm := Nat.div_add_mod cx (2 ^ k)
      exact ⟨cx / 2 ^ k, by rw [hhalf]; omega, hcxW⟩
    refine foldl_write_once _ (fun b : Terrain × ℕ => b.1.heights cx cy) (dsInv n k)
      cy (1/2) _ ?_ ?_ ?_ hmemy st ⟨hW, hL, hlat⟩
    · intro b y _ hb
      refine foldl_preserve _ (dsInv n k) _ ?_ b hb
      intro b2 x hx hb2
      exact hupd b2 x y (hmemmod x _ hx) hb2
    · intro b hb
      refine foldl_write_once _ (fun b2 : Terrain × ℕ => b2.1.heights cx cy) (dsInv n k)
        cx (1/2) _ ?_ ?_ ?_ (hmemx b.1.width hb.1) b hb
      · intro b2 x hx hb2
        exact hupd b2 x cy (hmemmod x _ hx) hb2
      · intro b2 hb2
        exact hwrite b2 cx cy hcx hcy hcxW hcyL hb2
      · intro b2 x hx hne hb2
        apply updateSquare_heights_ne
        rintro ⟨h1, -⟩
        exact hne h1.symm
    · intro b y _ hne hb
      refine foldl_frame_inv _ (fun b2 : Terrain × ℕ => b2.1.heights cx cy) (dsInv n k)
        _ ?_ ?_ b hb
      · intro b2 x hx hb2
        exact hupd b2 x y (hmemmod x _ hx) hb2
      · intro b2 x _ hb2
        apply updateSquare_heights_ne
        rintro ⟨-, h2⟩
        exact hne h2.symm

theorem updateDiamond_writes_A (amp : ℚ → ℚ) (rng : ℕ → ℚ) (hamp : ∀ f, amp f = 0)
    (n k : ℕ) (hk1 : 1 ≤ k) (hk2 : k ≤ n) (b : Terrain × ℕ) (cx cy : ℕ)
    (hcx : cx % 2 ^ k = 2 ^ (k - 1)) (hcy : cy % 2 ^ k = 0)
    (hcxW : cx < 2 ^ n + 1) (hcyL : cy < 2 ^ n + 1) (hb : dsInvC n k b) :
    (updateDiamond amp rng b cx cy (2 ^ k)).1.heights cx cy = 1/2 := by
  obtain ⟨⟨hbW, hbL, hblat⟩, hbcen⟩ := hb
  have hhalf : 2 ^ k / 2 = 2 ^ (k - 1) := two_pow_half k hk1
  have hp : 0 < (2 : ℕ) ^ (k - 1) := pow_pos (by norm_num) _
  have hsp : 2 ^ (k - 1) * 2 = 2 ^ k := two_pow_split k hk1
  have hn0 : 0 < (2 : ℕ) ^ n := pow_pos (by norm_num) _
  have hmod2n : (2 : ℕ) ^ n % 2 ^ k = 0 := two_pow_mod_two_pow n k hk2
  rw [updateDiamond_heights_self, hamp, mul_zero, hhalf]
  have hr := mid_residues k cx hk1 hcx
  have hcx0 : cx ≠ 0 := by omega
  have hsub2 : b.1.length - 1 = 2 ^ n := by omega
  have hsub3 : b.1.width - 1 = 2 ^ n := by omega
  have hcxn : cx ≠ 2 ^ n := by
    intro he
    rw [he] at hcx
    omega
  have hxu := mid_add_le n k cx hk1 hk2 hcx hcxW
  have hv1 : b.1.get (cx - 2 ^ (k - 1)) cy = 1/2 :=
    hblat _ _ (by omega) (by omega) hr.2.1 hcy
  have hv2 : b.1.get (cx + 2 ^ (k - 1)) cy = 1/2 :=
    hblat _ _ (by omega) (by omega) hr.2.2 hcy
  have hv3 : cy ≠ 0 → b.1.get cx (cy - 2 ^ (k - 1)) = 1/2 := by
    intro hne
    have hlr := (lattice_residues k cy hk1 hcy).2 hne
    exact hbcen _ _ (by omega) (by omega) hcx hlr.2
  have hv4 : cy ≠ 2 ^ n → b.1.get cx (cy + 2 ^ (k - 1)) = 1/2 := by
    intro hne
    have hby := lattice_add_le n k cy hk2 hcy hne hcyL
    exact hbcen _ _ (by omega) (by omega) hcx (lattice_residues k cy hk1 hcy).1
  suffices hm : diamondMean b.1 cx cy (2 ^ (k - 1)) = 1/2 by
    rw [hm]
    exact clampVal_half
  unfold diamondMean diamondNeighbours
  rw [hsub2, hsub3]
  by_cases h0 : cy = 0
  · subst h0
    have hn2 : (0 : ℕ) ≠ 2 ^ n := by omega
    rw [if_pos hcx0, if_neg (by omega), if_pos hcxn, if_pos hn2, hv1, hv2, hv4 hn2]
    simp
    norm_num
  · by_cases h1 : cy = 2 ^ n
    · rw [if_pos hcx0, if_pos h0, if_pos hcxn, if_neg (by omega), hv1, hv2, hv3 h0]
      simp
      norm_num
    · rw [if_pos hcx0, if_pos h0, if_pos hcxn, if_pos h1, hv1, hv2, hv3 h0, hv4 h1]
      simp
      norm_num

theorem updateDiamond_writes_B (amp : ℚ → ℚ) (rng : ℕ → ℚ) (hamp : ∀ f, amp f = 0)
    (n k : ℕ) (hk1 : 1 ≤ k) (hk2 : k ≤ n) (b : Terrain × ℕ) (cx cy : ℕ)
    (hcx : cx % 2 ^ k = 0) (hcy : cy % 2 ^ k = 2 ^ (k - 1))
    (hcxW : cx < 2 ^ n + 1) (hcyL : cy < 2 ^ n + 1) (hb : dsInvC n k b) :
    (updateDiamond amp rng b cx cy (2 ^ k)).1.heights cx cy = 1/2 := by
  obtain ⟨⟨hbW, hbL, hblat⟩, hbcen⟩ := hb
  have hhalf : 2 ^ k / 2 = 2 ^ (k - 1) := two_pow_half k hk1
  have hp : 0 < (2 : ℕ) ^ (k - 1) := pow_pos (by norm_num) _
  have hsp : 2 ^ (k - 1) * 2 = 2 ^ k := two_pow_split k hk1
  have hn0 : 0 < (2 : ℕ) ^ n := pow_pos (by norm_num) _
  have hmod2n : (2 : ℕ) ^ n % 2 ^ k = 0 := two_pow_mod_two_pow n k hk2
  rw [updateDiamond_heights_self, hamp, mul_zero, hhalf]
  have hr := mid_residues k cy hk1 hcy
  have hcy0 : cy ≠ 0 := by omega
  have hsub2 : b.1.length - 1 = 2 ^ n := by omega
  have hsub3 : b.1.width - 1 = 2 ^ n := by omega
  have hcyn : cy ≠ 2 ^ n := by
    intro he
    rw [he] at hcy
    omega
  have hyu := mid_add_le n k cy hk1 hk2 hcy hcyL
  have hv1 : b.1.get cx (cy - 2 ^ (k - 1)) = 1/2 :=
    hblat _ _ (by omega) (by omega) hcx hr.2.1
  have hv2 : b.1.get cx (cy + 2 ^ (k - 1)) = 1/2 :=
    hblat _ _ (by omega) (by omega) hcx hr.2.2
  have hv3 : cx ≠ 0 → b.1.get (cx - 2 ^ (k - 1)) cy = 1/2 := by
    intro hne
    have hlr := (lattice_residues k cx hk1 hcx).2 hne
    exact hbcen _ _ (by omega) (by omega) hlr.2 hcy
  have hv4 : cx ≠ 2 ^ n → b.1.get (cx + 2 ^ (k - 1)) cy = 1/2 := by
    intro hne
    have hbx := lattice_add_le n k cx hk2 hcx hne hcxW
    exact hbcen _ _ (by omega) (by omega) (lattice_residues k cx hk1 hcx).1 hcy
  suffices hm : diamondMean b.1 cx cy (2 ^ (k - 1)) = 1/2 by
    rw [hm]
    exact clampVal_half
  unfold diamondMean diamondNeighbours
  rw [hsub2, hsub3]
  by_cases h0 : cx = 0
  · subst h0
    have hn2 : (0 : ℕ) ≠ 2 ^ n := by omega
    rw [if_neg (by omega), if_pos hcy0, if_pos hn2, if_pos hcyn, hv1, hv2, hv4 hn2]
    simp
    norm_num
  · by_cases h1 : cx = 2 ^ n
    · rw [if_pos h0, if_pos hcy0, if_neg (by omega), if_pos hcyn, hv1, hv2, hv3 h0]
      simp
      norm_num
    · rw [if_pos h0, if_pos hcy0, if_pos h1, if_pos hcyn, hv1, hv2, hv3 h0, hv4 h1]
      simp
      norm_num

theorem diamondPass_zero_amp (amp : ℚ → ℚ) (rng : ℕ → ℚ) (hamp : ∀ f, amp f = 0)
    (n k : ℕ) (hk1 : 1 ≤ k) (hk2 : k ≤ n) (st : Terrain × ℕ) (hst : dsInvC n k st) :
    (diamondPass amp rng st (2 ^ k)).1.width = 2 ^ n + 1 ∧
    (diamondPass amp rng st (2 ^ k)).1.length = 2 ^ n + 1 ∧
    latticeHalf (2 ^ (k - 1)) (2 ^ n + 1) (2 ^ n + 1) (diamondPass amp rng st (2 ^ k)).1 := by
  obtain ⟨⟨hW, hL, hlat⟩, hcen⟩ := hst
  have hhalf : 2 ^ k / 2 = 2 ^ (k - 1) := two_pow_half k hk1
  have hp : 0 < (2 : ℕ) ^ (k - 1) := pow_pos (by norm_num) _
  have hps : 0 < (2 : ℕ) ^ k := pow_pos (by norm_num) _
  have hsp : 2 ^ (k - 1) * 2 = 2 ^ k := two_pow_split k hk1
  have hdims := diamondPass_dims amp rng st (2 ^ k)
  refine ⟨by rw [hdims.1, hW], by rw [hdims.2, hL], ?_⟩
  have hymod : ∀ (y L0 : ℕ), y ∈ pyRange 0 L0 (2 ^ k / 2) → y % 2 ^ (k - 1) = 0 := by
    intro y L0 hy
    obtain ⟨j, rfl, hyb⟩ := (mem_pyRange (by omega : 0 < 2 ^ k / 2)).mp hy
    rw [hhalf, Nat.zero_add]
    exact Nat.mul_mod_right _ _
  have htargetmod : ∀ (y x i : ℕ), y % 2 ^ (k - 1) = 0 →
      x = (y + 2 ^ k / 2) % 2 ^ k + 2 ^ k * i →
      (x % 2 ^ k = 2 ^ (k - 1) ∧ y % 2 ^ k = 0) ∨
      (x % 2 ^ k = 0 ∧ y % 2 ^ k = 2 ^ (k - 1)) := by
    intro y x i hy hx
    have hxmod : x % 2 ^ k = (y + 2 ^ (k - 1)) % 2 ^ k := by
      rw [hx, hhalf, Nat.add_mul_mod_self_left, Nat.mod_mod_of_dvd _ (dvd_refl _)]
    rcases half_multiple_cases k y hk1 hy with h0 | h0
    · exact Or.inl ⟨by rw [hxmod]; exact (lattice_residues k y hk1 h0).1, h0⟩
    · exact Or.inr ⟨by rw [hxmod]; exact (mid_residues k y hk1 h0).2.2, h0⟩
  have hclass : ∀ (b : Terrain × ℕ) (y x : ℕ), y % 2 ^ (k - 1) = 0 →
      x ∈ pyRange ((y + 2 ^ k / 2) % 2 ^ k) b.1.width (2 ^ k) →
      ((x % 2 ^ k = 2 ^ (k - 1) ∧ y % 2 ^ k = 0) ∨
        (x % 2 ^ k = 0 ∧ y % 2 ^ k = 2 ^ (k - 1))) := by
    intro b y x hy hx
    obtain ⟨i, rfl, hxb⟩ := (mem_pyRange hps).mp hx
    exact htargetmod y _ i hy rfl
  have hupd : ∀ (b : Terrain × ℕ) (x y : ℕ),
      ((x % 2 ^ k = 2 ^ (k - 1) ∧ y % 2 ^ k = 0) ∨
        (x % 2 ^ k = 0 ∧ y % 2 ^ k = 2 ^ (k - 1))) →
      dsInvC n k b → dsInvC n k (updateDiamond amp rng b x y (2 ^ k)) := by
    intro b x y hcl hb
    obtain ⟨⟨hbW, hbL, hblat⟩, hbcen⟩ := hb
    refine ⟨⟨by simpa using hbW, by simpa using hbL, ?_⟩, ?_⟩
    · intro a c haW hcL ha hc
      rw [updateDiamond_heights_ne]
      · exact hblat a c haW hcL ha hc
      · rintro ⟨rfl, rfl⟩
        rcases hcl with ⟨h1, h2⟩ | ⟨h1, h2⟩ <;> omega
    · intro a c haW hcL ha hc
      rw [updateDiamond_heights_ne]
      · exact hbcen a c haW hcL ha hc
      · rintro ⟨rfl, rfl⟩
        rcases hcl with ⟨h1, h2⟩ | ⟨h1, h2⟩ <;> omega
  intro cx cy hcxW hcyL hcx hcy
  unfold diamondPass
  rcases half_multiple_cases k cx hk1 hcx with hx0 | hx0 <;>
    rcases half_multiple_cases k cy hk1 hcy with hy0 | hy0
  · -- both on the coarse lattice: the pass never writes here
    have hframe : ((pyRange 0 st.1.length (2 ^ k / 2)).foldl
        (fun s y => (pyRange ((y + 2 ^ k / 2) % 2 ^ k) s.1.width (2 ^ k)).foldl
          (fun s2 x => updateDiamond amp rng s2 x y (2 ^ k)) s) st).1.heights cx cy =
        st.1.heights cx cy := by
      refine foldl_frame_inv _ (fun b : Terrain × ℕ => b.1.heights cx cy)
        (dsInvC n k) _ ?_ ?_ st ⟨⟨hW, hL, hlat⟩, hcen⟩
      · intro b y hy hb
        refine foldl_preserve _ (dsInvC n k) _ ?_ b hb
        intro b2 x hx hb2
        exact hupd b2 x y (hclass b y x (hymod y _ hy) hx) hb2
      · intro b y hy hb
        refine foldl_frame_inv _ (fun b2 : Terrain × ℕ => b2.1.heights cx cy)
          (dsInvC n k) _ ?_ ?_ b hb
        · intro b2 x hx hb2
          exact hupd b2 x y (hclass b y x (hymod y _ hy) hx) hb2
        · intro b2 x hx hb2
          have hcl := hclass b y x (hymod y _ hy) hx
          apply updateDiamond_heights_ne
          rintro ⟨rfl, rfl⟩
          rcases hcl with ⟨h1, h2⟩ | ⟨h1, h2⟩ <;> omega
    rw [hframe]
    exact hlat cx cy hcxW hcyL hx0 hy0
  · -- cx on the lattice, cy at the half residue: written by the pass
    have hmy : cy ∈ pyRange 0 st.1.length (2 ^ k / 2) := by
      rw [hL, mem_pyRange (by omega : 0 < 2 ^ k / 2)]
      have hdm := Nat.div_add_mod cy (2 ^ (k - 1))
      refine ⟨cy / 2 ^ (k - 1), ?_, hcyL⟩
      rw [hhalf]
      omega
    refine foldl_write_once _ (fun b : Terrain × ℕ => b.1.heights cx cy) (dsInvC n k)
      cy (1/2) _ ?_ ?_ ?_ hmy st ⟨⟨hW, hL, hlat⟩, hcen⟩
    · intro b y hy hb
      refine foldl_preserve _ (dsInvC n k) _ ?_ b hb
      intro b2 x hx hb2
      exact hupd b2 x y (hclass b y x (hymod y _ hy) hx) hb2
    · intro b hb
      have hmx : cx ∈ pyRange ((cy + 2 ^ k / 2) % 2 ^ k) b.1.width (2 ^ k) := by
        rw [hb.1.1, mem_pyRange hps]
        have hstart : (cy + 2 ^ k / 2) % 2 ^ k = 0 := by
          rw [hhalf]
          exact (mid_residues k cy hk1 hy0).2.2
        have hdm := Nat.div_add_mod cx (2 ^ k)
        refine ⟨cx / 2 ^ k, ?_, hcxW⟩
        rw [hstart]
        omega
      refine foldl_write_once _ (fun b2 : Terrain × ℕ => b2.1.heights cx cy) (dsInvC n k)
        cx (1/2) _ ?_ ?_ ?_ hmx b hb
      · intro b2 x hx hb2
        exact hupd b2 x cy (hclass b cy x hcy hx) hb2
      · intro b2 hb2
        exact updateDiamond_writes_B amp rng hamp n k hk1 hk2 b2 cx cy hx0 hy0 hcxW hcyL hb2
      · intro b2 x hx hne hb2
        apply updateDiamond_heights_ne
        rintro ⟨h1, -⟩
        exact hne h1.symm
    · intro b y hy hne hb
      refine foldl_frame_inv _ (fun b2 : Terrain × ℕ => b2.1.heights cx cy)
        (dsInvC n k) _ ?_ ?_ b hb
      · intro b2 x hx hb2
        exact hupd b2 x y (hclass b y x (hymod y _ hy) hx) hb2
      · intro b2 x hx hb2
        apply updateDiamond_heights_ne
        rintro ⟨-, h2⟩
        exact hne h2.symm
  · -- cx at the half residue, cy on the lattice: written by the pass
    have hmy : cy ∈ pyRange 0 st.1.length (2 ^ k / 2) := by
      rw [hL, mem_pyRange (by omega : 0 < 2 ^ k / 2)]
      have hdm := Nat.div_add_mod cy (2 ^ (k - 1))
      refine ⟨cy / 2 ^ (k - 1), ?_, hcyL⟩
      rw [hhalf]
      omega
    refine foldl_write_once _ (fun b : Terrain × ℕ => b.1.heights cx cy) (dsInvC n k)
      cy (1/2) _ ?_ ?_ ?_ hmy st ⟨⟨hW, hL, hlat⟩, hcen⟩
    · intro b y hy hb
      refine foldl_preserve _ (dsInvC n k) _ ?_ b hb
      intro b2 x hx hb2
      exact hupd b2 x y (hclass b y x (hymod y _ hy) hx) hb2
    · intro b hb
      have hmx : cx ∈ pyRange ((cy + 2 ^ k / 2) % 2 ^ k) b.1.width (2 ^ k) := by
        rw [hb.1.1, mem_pyRange hps]
        have hstart : (cy + 2 ^ k / 2) % 2 ^ k = 2 ^ (k - 1) := by
          rw [hhalf]
          exact (lattice_residues k cy hk1 hy0).1
        have hdm := Nat.div_add_mod cx (2 ^ k)
        refine ⟨cx / 2 ^ k, ?_, hcxW⟩
        rw [hstart]
        omega
      refine foldl_write_once _ (fun b2 : Terrain × ℕ => b2.1.heights cx cy) (dsInvC n k)
        cx (1/2) _ ?_ ?_ ?_ hmx b hb
      · intro b2 x hx hb2
        exact hupd b2 x cy (hclass b cy x hcy hx) hb2
      · intro b2 hb2
        exact updateDiamond_writes_A amp rng hamp n k hk1 hk2 b2 cx cy hx0 hy0 hcxW hcyL hb2
      · intro b2 x hx hne hb2
        apply updateDiamond_heights_ne
        rintro ⟨h1, -⟩
        exact hne h1.symm
    · intro b y hy hne hb
      refine foldl_frame_inv _ (fun b2 : Terrain × ℕ => b2.1.heights cx cy)
        (dsInvC n k) _ ?_ ?_ b hb
      · intro b2 x hx hb2
        exact hupd b2 x y (hclass b y x (hymod y _ hy) hx) hb2
      · intro b2 x hx hb2
        apply updateDiamond_heights_ne
        rintro ⟨-, h2⟩
        exact hne h2.symm
  · -- both at the half residue: a square centre, untouched by the pass
    have hframe : ((pyRange 0 st.1.length (2 ^ k / 2)).foldl
        (fun s y => (pyRange ((y + 2 ^ k / 2) % 2 ^ k) s.1.width (2 ^ k)).foldl
          (fun s2 x => updateDiamond amp rng s2 x y (2 ^ k)) s) st).1.heights cx cy =
        st.1.heights cx cy := by
      refine foldl_frame_inv _ (fun b : Terrain × ℕ => b.1.heights cx cy)
        (dsInvC n k) _ ?_ ?_ st ⟨⟨hW, hL, hlat⟩, hcen⟩
      · intro b y hy hb
        refine foldl_preserve _ (dsInvC n k) _ ?_ b hb
        intro b2 x hx hb2
        exact hupd b2 x y (hclass b y x (hymod y _ hy) hx) hb2
      · intro b y hy hb
        refine foldl_frame_inv _ (fun b2 : Terrain × ℕ => b2.1.heights cx cy)
          (dsInvC n k) _ ?_ ?_ b hb
        · intro b2 x hx hb2
          exact hupd b2 x y (hclass b y x (hymod y _ hy) hx) hb2
        · intro b2 x hx hb2
          have hcl := hclass b y x (hymod y _ hy) hx
          apply updateDiamond_heights_ne
          rintro ⟨rfl, rfl⟩
          rcases hcl with ⟨h1, h2⟩ | ⟨h1, h2⟩ <;> omega
    rw [hframe]
    exact hcen cx cy hcxW hcyL hx0 hy0

theorem divide_zero_amp (amp : ℚ → ℚ) (rng : ℕ → ℚ) (hamp : ∀ f, amp f = 0) (n : ℕ) :
    ∀ k, k ≤ n → ∀ st : Terrain × ℕ, dsInv n k st →
      ∀ x y, x < 2 ^ n + 1 → y < 2 ^ n + 1 →
        (divide amp rng st (2 ^ k)).1.heights x y = 1/2 := by
  intro k
  induction k with
  | zero =>
    intro _ st hst x y hx hy
    rw [divide]
    norm_num
    exact hst.2.2 x y hx hy (Nat.mod_one x) (Nat.mod_one y)
  | succ k ih =>
    intro hk st hst x y hx hy
    rw [divide, two_pow_succ_div_two k]
    have hp : 0 < (2 : ℕ) ^ k := pow_pos (by norm_num) k
    rw [if_neg (by omega)]
    have hsq := squarePass_zero_amp amp rng hamp n (k + 1) (by omega) hk st hst
    have hdi := diamondPass_zero_amp amp rng hamp n (k + 1) (by omega) hk _ hsq
    exact ih (by omega) _ ⟨hdi.1, hdi.2.1, hdi.2.2⟩ x y hx hy

/-- Claim C3: if the amplitude function returns 0 for every frequency, then
for every side_exponent >= 0 and every stream of random draws, every cell of
the Terrain returned by DiamondSquareGenerator.__call__ equals exactly 0.5. -/
theorem callDS_zero_amp_all_half (amp : ℚ → ℚ) (rng : ℕ → ℚ) (side_exp x y : ℕ)
    (hamp : ∀ f, amp f = 0) (hx : x < 2 ^ side_exp + 1) (hy : y < 2 ^ side_exp + 1) :
    (callDS amp rng side_exp).get x y = 1/2 := by
  have hm : 0 < 2 ^ side_exp := pow_pos (by norm_num : (0 : ℕ) < 2) side_exp
  have hsub : 2 ^ side_exp + 1 - 1 = 2 ^ side_exp := by omega
  have hinit : dsInv side_exp side_exp
      (initCorners (mkTerrain (2 ^ side_exp + 1) (2 ^ side_exp + 1)) (1/2), 0) := by
    refine ⟨rfl, rfl, ?_⟩
    intro a b haW hbL ha hb
    have hinitvals := initCorners_corner_vals (2 ^ side_exp) hm (1/2)
    have ha2 : a = 0 ∨ a = 2 ^ side_exp := by
      rcases Nat.eq_zero_or_pos a with h | h
      · exact Or.inl h
      · right
        have := Nat.le_of_dvd h (Nat.dvd_of_mod_eq_zero ha)
        omega
    have hb2 : b = 0 ∨ b = 2 ^ side_exp := by
      rcases Nat.eq_zero_or_pos b with h | h
      · exact Or.inl h
      · right
        have := Nat.le_of_dvd h (Nat.dvd_of_mod_eq_zero hb)
        omega
    rcases ha2 with rfl | rfl <;> rcases hb2 with rfl | rfl
    · exact hinitvals.1
    · exact hinitvals.2.1
    · exact hinitvals.2.2.1
    · exact hinitvals.2.2.2
  simp only [callDS, Terrain.get, hsub]
  exact divide_zero_amp amp rng hamp side_exp side_exp (le_refl _) _ hinit x y hx hy

/-- Witness for C3 at side_exponent 1, cell (0, 0), zero amplitude. -/
theorem callDS_zero_amp_all_half_witness :
    (0 : ℕ) < 2 ^ 1 + 1 ∧ (callDS (fun _ => 0) (fun _ => 0) 1).get 0 0 = 1/2 :=
  ⟨by norm_num, callDS_zero_amp_all_half (fun _ => 0) (fun _ => 0) 1 0 0
    (fun _ => rfl) (by norm_num) (by norm_num)⟩
